import Mathlib

/-!
Verification development for the `repo2AI` directory-tree serializer
(`local_repo2ai.py`).  The Python source is shallowly embedded below:

* paths are handled exactly as the source does, as strings split on `'/'`
  (Python `str.split('/')` semantics, including empty segments);
* the exclusion predicate `should_exclude_path`, the recursive tree builder
  `build_structure_xml`, the content loader with its 10 MiB size guard and
  its control-character sanitizer, and the top-level driver are translated
  into total Lean functions over an explicit filesystem model `FSEntry`;
* filesystem effects (directory listings, file reads, permission errors)
  are represented by data in the `FSEntry` model: a directory carries a
  `readable` flag (listing succeeds or raises `PermissionError`) and a file
  carries the outcome of reading it (`ReadResult`).
-/

set_option maxHeartbeats 1000000

namespace Repo2AI

/-- Accumulator-style splitting of a character list at the separator `sep`,
mirroring Python `str.split(sep)` for a one-character separator
(so `"" ↦ [""]`, `"a//b" ↦ ["a","","b"]` for `sep = '/'`). -/
def splitAcc (sep : Char) (cur : List Char) : List Char → List String
  | [] => [String.mk cur.reverse]
  | c :: cs =>
    if c = sep then String.mk cur.reverse :: splitAcc sep [] cs
    else splitAcc sep (c :: cur) cs

/-- Python `s.split(sep)` for a one-character separator. -/
def pySplitOn (sep : Char) (s : String) : List String := splitAcc sep [] s.data

/-- Python `rel_path.split(os.sep)` with `os.sep = '/'`. -/
def pySplitSlash (s : String) : List String := pySplitOn '/' s

/-- Python `'/'.join`, used to reconstruct the relative path of an entry from
its chain of names; `os.path.relpath` of an entry under the root is exactly
the `'/'`-joined list of names leading to it. -/
def joinSlash : List String → String
  | [] => ""
  | [s] => s
  | s :: rest => s ++ "/" ++ joinSlash rest

/-- Python `s.endswith(suf)`: character-list suffix test. -/
def pyEndsWith (s suf : String) : Bool := suf.data.isSuffixOf s.data

/-- Python `item.startswith('.')`: the first character is a dot. -/
def startsWithDot (s : String) : Bool := s.data.head? == some '.'

/-- The sliding-window segment test of `should_exclude_path`: Python's
`for i in range(len(path_parts) - len(exclude_parts) + 1):
   if path_parts[i:i+len(exclude_parts)] == exclude_parts: return True`,
i.e. `pat` occurs as a contiguous run of `parts`. -/
def hasWindow (pat : List String) : List String → Bool
  | [] => pat.isPrefixOf []
  | s :: rest => pat.isPrefixOf (s :: rest) || hasWindow pat rest

/-- The inner predicate `should_exclude_path` of `describe_repo_contents_xml`
(`local_repo2ai.py`, lines 17-39).  `rel_path` is
`os.path.relpath(path, repo_folder)` and `isFile` is `os.path.isfile(path)`;
the two exclusion lists are the closed-over `exclude_files`/`exclude_folders`. -/
def should_exclude_path (exclude_folders exclude_files : List String)
    (rel_path : String) (isFile : Bool) : Bool :=
  (isFile && exclude_files.any (fun ef => rel_path == ef || pyEndsWith rel_path ("/" ++ ef)))
  || exclude_folders.any (fun ef => hasWindow (pySplitSlash ef) (pySplitSlash rel_path))

/-- Characters matched by the sanitizing regular expression
`[\x00-\x08\x0b\x0c\x0e-\x1f\x7f-\x9f]` (line 128): control characters other
than tab `\x09`, newline `\x0a` and carriage return `\x0d`, plus the
`\x7f`-`\x9f` range. -/
def isStrippedControl (c : Char) : Bool :=
  c.val ≤ 0x08 || c.val == 0x0b || c.val == 0x0c
    || (0x0e ≤ c.val && c.val ≤ 0x1f) || (0x7f ≤ c.val && c.val ≤ 0x9f)

/-- Character-by-character deletion of the stripped control characters, as
`re.sub(pattern, '', content)` performs on the decoded text. -/
def sanitizeChars : List Char → List Char
  | [] => []
  | c :: cs => if isStrippedControl c then sanitizeChars cs else c :: sanitizeChars cs

/-- `content = re.sub(r'[\x00-\x08\x0b\x0c\x0e-\x1f\x7f-\x9f]', '', content)`. -/
def sanitize (s : String) : String := String.mk (sanitizeChars s.data)

/-- The extension part of Python `os.path.splitext(item)` (there is no
directory separator in a bare name): the substring from the last dot on,
except that a name whose characters before that dot are all dots has no
extension. -/
def splitextExt (name : String) : String :=
  let parts := pySplitOn '.' name
  if parts.length ≤ 1 then ""
  else if parts.dropLast.all (fun p => p == "") then ""
  else "." ++ parts.getLastD ""

/-- ASCII lower-casing of one character (`ext.lower()` on the extensions the
table contains only ever affects ASCII letters). -/
def asciiLower (c : Char) : Char :=
  if 65 ≤ c.val && c.val ≤ 90 then Char.ofNat (c.toNat + 32) else c

/-- `ext.lower()`. -/
def lowerStr (s : String) : String := String.mk (s.data.map asciiLower)

/-- The literal `extension_to_language` table (lines 80-107). -/
def extension_to_language : List (String × String) :=
  [(".py", "python"), (".js", "javascript"), (".ts", "typescript"),
   (".jsx", "javascript"), (".tsx", "typescript"), (".java", "java"),
   (".cpp", "cpp"), (".c", "c"), (".cs", "csharp"), (".html", "html"),
   (".css", "css"), (".rb", "ruby"), (".php", "php"), (".go", "go"),
   (".rs", "rust"), (".swift", "swift"), (".kt", "kotlin"), (".sh", "bash"),
   (".md", "markdown"), (".json", "json"), (".xml", "xml"), (".yaml", "yaml"),
   (".yml", "yaml"), (".sql", "sql"), (".r", "r"), (".scala", "scala")]

/-- `language = extension_to_language.get(ext.lower(), 'text')`. -/
def languageFor (name : String) : String :=
  match extension_to_language.lookup (lowerStr (splitextExt name)) with
  | some lang => lang
  | none => "text"

/-- Outcome of `open(item_path, 'r', encoding='utf-8', errors='ignore')`
followed by `f.read()`: either the decoded text (decoding errors are already
ignored by the codec), or an exception from the caught class
`(UnicodeDecodeError, PermissionError, OSError)` carrying `str(e)`. -/
inductive ReadResult where
  | ok (text : String)
  | err (msg : String)

/-- Model of one filesystem entry under the traversal root.  A directory's
`readable` flag records whether `os.listdir` succeeds on it; its children are
listed in an arbitrary (listing) order.  A file carries `os.path.getsize`
and the outcome of reading it. -/
inductive FSEntry where
  | file (name : String) (size : Nat) (readRes : ReadResult)
  | dir (name : String) (readable : Bool) (children : List FSEntry)

def FSEntry.name : FSEntry → String
  | .file n _ _ => n
  | .dir n _ _ => n

def FSEntry.isFile : FSEntry → Bool
  | .file _ _ _ => true
  | .dir _ _ _ => false

/-- Lexicographic code-point comparison of character lists; this is exactly
how Python compares strings in `sorted(...)`. -/
def charListLe : List Char → List Char → Bool
  | [], _ => true
  | _ :: _, [] => false
  | a :: as, b :: bs =>
    if a.toNat < b.toNat then true
    else if b.toNat < a.toNat then false
    else charListLe as bs

/-- Python string `<=` on code points. -/
def strLe (a b : String) : Bool := charListLe a.data b.data

/-- Stable insertion of an entry into a name-sorted list. -/
def insertEntry (e : FSEntry) : List FSEntry → List FSEntry
  | [] => [e]
  | x :: xs => if strLe e.name x.name then e :: x :: xs else x :: insertEntry e xs

/-- `items = sorted(os.listdir(path))` (line 44): the directory's entries in
ascending name order; the listing order of `children` is immaterial after
this sort (stable insertion sort, extensionally Python's `sorted`). -/
def sortEntries : List FSEntry → List FSEntry
  | [] => []
  | x :: xs => insertEntry x (sortEntries xs)

mutual

/-- Size measure used to justify the recursion of the tree builder. -/
def entrySize : FSEntry → Nat
  | .file _ _ _ => 1
  | .dir _ _ cs => 1 + entrySizeList cs

def entrySizeList : List FSEntry → Nat
  | [] => 0
  | e :: l => entrySize e + entrySizeList l

end

/-- One node of the produced XML structure: a `<directory>` or `<file>`
element with its `name`/`path` attributes (and `language` plus the text of
the `<content>` child for files). -/
inductive Node where
  | dir (name : String) (path : String) (children : List Node)
  | file (name : String) (path : String) (language : String) (content : String)

/-- The text placed in the `<content>` element of a file node (lines
112-138): the size guard first, then the sanitized text of a successful
read, then the catch-all placeholder for a failed read. -/
def fileContent (size : Nat) (r : ReadResult) : String :=
  if size > 10 * 1024 * 1024 then
    "[File too large: " ++ toString size ++ " bytes]"
  else
    match r with
    | .ok text => sanitize text
    | .err e => "[Binary or unreadable file: " ++ e ++ "]"

theorem insertEntry_perm (e : FSEntry) (l : List FSEntry) :
    (insertEntry e l).Perm (e :: l) := by
  induction l with
  | nil => simp [insertEntry]
  | cons x xs ih =>
    simp only [insertEntry]
    by_cases h : strLe e.name x.name = true
    · simp [h]
    · simp only [h]
      simp only [Bool.false_eq_true, if_false]
      exact (List.Perm.cons x ih).trans (List.Perm.swap e x xs)

theorem sortEntries_perm (l : List FSEntry) : (sortEntries l).Perm l := by
  induction l with
  | nil => simp [sortEntries]
  | cons x xs ih =>
    exact (insertEntry_perm x (sortEntries xs)).trans (List.Perm.cons x ih)

theorem entrySizeList_append (l₁ l₂ : List FSEntry) :
    entrySizeList (l₁ ++ l₂) = entrySizeList l₁ + entrySizeList l₂ := by
  induction l₁ with
  | nil => simp [entrySizeList]
  | cons e l ih => simp [entrySizeList, ih]; omega

theorem entrySizeList_perm {l₁ l₂ : List FSEntry} (h : l₁.Perm l₂) :
    entrySizeList l₁ = entrySizeList l₂ := by
  induction h with
  | nil => rfl
  | cons x _ ih => simp [entrySizeList, ih]
  | swap x y l => simp [entrySizeList]; omega
  | trans _ _ ih₁ ih₂ => omega

theorem entrySizeList_sortEntries (l : List FSEntry) :
    entrySizeList (sortEntries l) = entrySizeList l :=
  entrySizeList_perm (sortEntries_perm l)

theorem entrySize_pos (e : FSEntry) : 0 < entrySize e := by
  cases e <;> simp [entrySize]

/-- The body of `build_structure_xml` (lines 41-138) applied to the sorted
listing of one directory: for each entry, skip hidden names, skip excluded
paths, emit a `<directory>` element (recursing into its sorted listing when
readable, leaving it childless when `os.listdir` raises `PermissionError`)
or a `<file>` element with language tag and content text.  `pre` is the
chain of names from the root to the current directory, so an entry's
`os.path.relpath` is `joinSlash (pre ++ [name])`. -/
def buildItems (xf xF : List String) (pre : List String) : List FSEntry → List Node
  | [] => []
  | .file n sz r :: rest =>
    (if startsWithDot n then []
     else if should_exclude_path xf xF (joinSlash (pre ++ [n])) true then []
     else [Node.file n (joinSlash (pre ++ [n])) (languageFor n) (fileContent sz r)])
    ++ buildItems xf xF pre rest
  | .dir n rd cs :: rest =>
    (if startsWithDot n then []
     else if should_exclude_path xf xF (joinSlash (pre ++ [n])) false then []
     else [Node.dir n (joinSlash (pre ++ [n]))
            (if rd then buildItems xf xF (pre ++ [n]) (sortEntries cs) else [])])
    ++ buildItems xf xF pre rest
  termination_by l => entrySizeList l
  decreasing_by
  · simp only [entrySizeList, entrySize]; omega
  · rw [entrySizeList_sortEntries]; simp only [entrySizeList, entrySize]; omega
  · simp only [entrySizeList, entrySize]; omega

/-- `build_structure_xml(parent, path)` for a directory whose chain of names
from the root is `pre`: if `os.listdir` fails with `PermissionError` the
function returns at once and contributes no children; otherwise it processes
the sorted listing. -/
def buildDir (xf xF : List String) (pre : List String) (readable : Bool)
    (children : List FSEntry) : List Node :=
  if readable then buildItems xf xF pre (sortEntries children) else []

/-- The root `<repository>` element (lines 150-160): provenance attributes
and the `<structure>` element's children. -/
structure Document where
  source_path : String
  name : String
  excluded_folders : Option String
  excluded_files : Option String
  contents : List Node

/-- Python `', '.join`. -/
def joinComma : List String → String
  | [] => ""
  | [s] => s
  | s :: rest => s ++ ", " ++ joinComma rest

/-- `describe_repo_contents_xml` (lines 8-194) over the filesystem model:
raise `ValueError` when the root is not a directory, otherwise build the
document and write it, propagating a write failure as an error.  `isDir`
models `os.path.isdir(repo_folder)`, `rootReadable` whether `os.listdir`
succeeds on the root itself, and `outputWritable` whether creating the
output directory and writing the file succeeds. -/
def describe_repo_contents_xml (isDir : Bool) (absPath baseName : String)
    (rootReadable : Bool) (entries : List FSEntry) (outputWritable : Bool)
    (xf xF : List String) : Except String Document :=
  if !isDir then
    .error ("The provided path is not a valid directory.")
  else
    let doc : Document :=
      { source_path := absPath
        name := baseName
        excluded_folders := if xf.isEmpty then none else some (joinComma xf)
        excluded_files := if xF.isEmpty then none else some (joinComma xF)
        contents := buildDir xf xF [] rootReadable entries }
    if outputWritable then .ok doc else .error "Error generating XML description"

/-- `main()` (lines 196-231): validate existence and directory-ness of the
source path (exit code 1, nothing written), then run the serializer; any
exception it raises is caught and turned into exit code 1, success returns
exit code 0 with the document written. -/
def main_run (sourceExists sourceIsDir : Bool) (absPath baseName : String)
    (rootReadable : Bool) (entries : List FSEntry) (outputWritable : Bool)
    (xf xF : List String) : Nat × Option Document :=
  if !sourceExists then (1, none)
  else if !sourceIsDir then (1, none)
  else
    match describe_repo_contents_xml sourceIsDir absPath baseName rootReadable
        entries outputWritable xf xF with
    | .ok d => (0, some d)
    | .error _ => (1, none)

/-- The per-entry skip test of the traversal loop (lines 50-60): hidden name
or excluded path (with `os.path.isfile` deciding which branch of
`should_exclude_path` applies). -/
def skipEntry (xf xF : List String) (pre : List String) (e : FSEntry) : Bool :=
  startsWithDot e.name
    || should_exclude_path xf xF (joinSlash (pre ++ [e.name])) e.isFile

/-- The node an included entry contributes to its parent element. -/
def nodeFor (xf xF : List String) (pre : List String) : FSEntry → Node
  | .file n sz r =>
    Node.file n (joinSlash (pre ++ [n])) (languageFor n) (fileContent sz r)
  | .dir n rd cs => Node.dir n (joinSlash (pre ++ [n])) (buildDir xf xF (pre ++ [n]) rd cs)

mutual

/-- Node-level invariant: the node's own path passes `should_exclude_path`
(with the node's kind) negatively, its name is not hidden, and the same
holds recursively for its children. -/
def goodNode (xf xF : List String) : Node → Bool
  | .file n p _ _ => !should_exclude_path xf xF p true && !startsWithDot n
  | .dir n p cs => !should_exclude_path xf xF p false && !startsWithDot n && goodList xf xF cs

def goodList (xf xF : List String) : List Node → Bool
  | [] => true
  | nd :: l => goodNode xf xF nd && goodList xf xF l

end

mutual

/-- All `path` attributes appearing in a node's subtree (itself included). -/
def nodePathsOne : Node → List String
  | .file _ p _ _ => [p]
  | .dir _ p cs => p :: nodePathsList cs

def nodePathsList : List Node → List String
  | [] => []
  | nd :: l => nodePathsOne nd ++ nodePathsList l

end

mutual

/-- The `path` attributes of the `<file>` elements in a node's subtree. -/
def filePathsOfNode : Node → List String
  | .file _ p _ _ => [p]
  | .dir _ _ cs => filePathsList cs

def filePathsList : List Node → List String
  | [] => []
  | nd :: l => filePathsOfNode nd ++ filePathsList l

end

mutual

/-- Segment chains (lists of names from the enclosing directory down to a
file) of every file entry reachable through readable directories; an
unreadable directory hides its whole subtree from the traversal. -/
def entryFileSegs : FSEntry → List (List String)
  | .file n _ _ => [[n]]
  | .dir n rd cs => if rd then (listFileSegs cs).map (fun segs => n :: segs) else []

def listFileSegs : List FSEntry → List (List String)
  | [] => []
  | e :: l => entryFileSegs e ++ listFileSegs l

end

/-- A legal entry name: nonempty and free of the path separator, as any
name returned by `os.listdir` is. -/
def okName (s : String) : Bool := !s.data.contains '/' && !s.data.isEmpty

mutual

/-- Well-formedness of the filesystem model: every entry name, recursively,
is a legal directory-listing name. -/
def validEntry : FSEntry → Bool
  | .file n _ _ => okName n
  | .dir n _ cs => okName n && validList cs

def validList : List FSEntry → Bool
  | [] => true
  | e :: l => validEntry e && validList l

end

mutual

/-- Order-normalization of the filesystem model: sort every directory's
children by name, recursively.  Two scans of the same on-disk tree differ
only in per-directory listing order, hence have equal normalizations. -/
def normEntry : FSEntry → FSEntry
  | .file n sz r => .file n sz r
  | .dir n rd cs => .dir n rd (sortEntries (normList cs))

def normList : List FSEntry → List FSEntry
  | [] => []
  | e :: l => normEntry e :: normList l

end

/-- Order-normalization of the root listing itself. -/
def normForest (l : List FSEntry) : List FSEntry := sortEntries (normList l)

/-- The folder-pattern half of `should_exclude_path` in isolation. -/
def folderHit (xf : List String) (rel_path : String) : Bool :=
  xf.any (fun ef => hasWindow (pySplitSlash ef) (pySplitSlash rel_path))

/-- The file-pattern half of `should_exclude_path` in isolation. -/
def fileHit (xF : List String) (rel_path : String) : Bool :=
  xF.any (fun ef => rel_path == ef || pyEndsWith rel_path ("/" ++ ef))

theorem should_exclude_split (xf xF : List String) (p : String) (b : Bool) :
    should_exclude_path xf xF p b = ((b && fileHit xF p) || folderHit xf p) := rfl

theorem buildItems_nil (xf xF pre : List String) : buildItems xf xF pre [] = [] := by
  simp [buildItems]

theorem buildItems_cons (xf xF pre : List String) (e : FSEntry) (rest : List FSEntry) :
    buildItems xf xF pre (e :: rest) =
      (if skipEntry xf xF pre e then [] else [nodeFor xf xF pre e])
        ++ buildItems xf xF pre rest := by
  cases e with
  | file n sz r =>
    simp only [buildItems, skipEntry, nodeFor, FSEntry.name, FSEntry.isFile]
    by_cases h1 : startsWithDot n = true
    · simp [h1]
    · by_cases h2 : should_exclude_path xf xF (joinSlash (pre ++ [n])) true = true
      · simp [h1, h2]
      · simp [h1, h2]
  | dir n rd cs =>
    simp only [buildItems, skipEntry, nodeFor, FSEntry.name, FSEntry.isFile, buildDir]
    by_cases h1 : startsWithDot n = true
    · simp [h1]
    · by_cases h2 : should_exclude_path xf xF (joinSlash (pre ++ [n])) false = true
      · simp [h1, h2]
      · simp [h1, h2]

theorem goodList_append (xf xF : List String) (l₁ l₂ : List Node) :
    goodList xf xF (l₁ ++ l₂) = (goodList xf xF l₁ && goodList xf xF l₂) := by
  induction l₁ with
  | nil => simp [goodList]
  | cons x l ih => simp [goodList, ih, Bool.and_assoc]

theorem goodList_buildItems_bound (xf xF : List String) :
    ∀ (k : Nat) (pre : List String) (l : List FSEntry), entrySizeList l ≤ k →
      goodList xf xF (buildItems xf xF pre l) = true := by
  intro k
  induction k with
  | zero =>
    intro pre l hl
    cases l with
    | nil => simp [buildItems, goodList]
    | cons e rest =>
      exfalso
      have := entrySize_pos e
      simp [entrySizeList] at hl
      omega
  | succ k ih =>
    intro pre l hl
    cases l with
    | nil => simp [buildItems, goodList]
    | cons e rest =>
      rw [buildItems_cons, goodList_append]
      have hrest : entrySizeList rest ≤ k := by
        have := entrySize_pos e
        simp only [entrySizeList] at hl
        omega
      rw [ih pre rest hrest]
      by_cases hs : skipEntry xf xF pre e = true
      · simp [hs, goodList]
      · rw [if_neg hs]
        simp only [Bool.and_true]
        cases e with
        | file n sz r =>
          simp only [skipEntry, FSEntry.name, FSEntry.isFile,
            Bool.or_eq_true, not_or, Bool.not_eq_true] at hs
          simp [goodList, goodNode, nodeFor, hs.1, hs.2]
        | dir n rd cs =>
          simp only [skipEntry, FSEntry.name, FSEntry.isFile,
            Bool.or_eq_true, not_or, Bool.not_eq_true] at hs
          simp only [goodList, goodNode, nodeFor, hs.1, hs.2, Bool.not_false,
            Bool.true_and, Bool.and_true, buildDir]
          cases rd with
          | false => simp [goodList]
          | true =>
            simp only [if_true]
            have hcs : entrySizeList (sortEntries cs) ≤ k := by
              rw [entrySizeList_sortEntries]
              simp only [entrySizeList, entrySize] at hl
              omega
            exact ih (pre ++ [n]) (sortEntries cs) hcs

theorem goodList_buildDir (xf xF pre : List String) (rd : Bool) (cs : List FSEntry) :
    goodList xf xF (buildDir xf xF pre rd cs) = true := by
  unfold buildDir
  cases rd with
  | false => simp [goodList]
  | true =>
    simp only [if_true]
    exact goodList_buildItems_bound xf xF (entrySizeList (sortEntries cs))
      pre (sortEntries cs) le_rfl

/-- C6: every node reachable in the final document passes the exclusion
predicate negatively for its own relative path and kind, and no reachable
node has a hidden (dot-initial) name, whatever the exclusion lists are. -/
theorem C6_document_invariant (xf xF : List String) (isDir : Bool)
    (absPath baseName : String) (rootReadable : Bool) (entries : List FSEntry)
    (outputWritable : Bool) (doc : Document)
    (h : describe_repo_contents_xml isDir absPath baseName rootReadable entries
        outputWritable xf xF = .ok doc) :
    goodList xf xF doc.contents = true := by
  unfold describe_repo_contents_xml at h
  by_cases hd : isDir = true
  · simp only [hd, Bool.not_true, Bool.false_eq_true, if_false] at h
    by_cases hw : outputWritable = true
    · simp only [hw, if_true, Except.ok.injEq] at h
      rw [← h]
      exact goodList_buildDir xf xF [] rootReadable entries
    · simp [hw] at h
  · simp [hd] at h

theorem C6_witness :
    describe_repo_contents_xml true "/repo" "repo" true [] true [] []
        = .ok ⟨"/repo", "repo", none, none, []⟩
    ∧ goodList [] [] (Document.contents ⟨"/repo", "repo", none, none, []⟩) = true := by
  constructor
  · simp [describe_repo_contents_xml, buildDir, sortEntries, buildItems]
  · exact C6_document_invariant [] [] true "/repo" "repo" true [] true _
      (by simp [describe_repo_contents_xml, buildDir, sortEntries, buildItems])

theorem mem_sortEntries {e : FSEntry} {l : List FSEntry} (h : e ∈ l) :
    e ∈ sortEntries l :=
  ((sortEntries_perm l).mem_iff).2 h

theorem nodeFor_mem_buildItems (xf xF pre : List String) {e : FSEntry}
    {l : List FSEntry} (hmem : e ∈ l) (hskip : skipEntry xf xF pre e = false) :
    nodeFor xf xF pre e ∈ buildItems xf xF pre l := by
  induction l with
  | nil => cases hmem
  | cons x xs ih =>
    rw [buildItems_cons]
    rcases List.mem_cons.1 hmem with h | h
    · rw [← h, if_neg (by simp [hskip])]
      exact List.mem_append_left _ (List.mem_singleton.2 rfl)
    · exact List.mem_append_right _ (ih h)

theorem nodeFor_mem_buildDir (xf xF pre : List String) {e : FSEntry}
    {cs : List FSEntry} (hmem : e ∈ cs) (hskip : skipEntry xf xF pre e = false) :
    nodeFor xf xF pre e ∈ buildDir xf xF pre true cs := by
  unfold buildDir
  rw [if_pos rfl]
  exact nodeFor_mem_buildItems xf xF pre (mem_sortEntries hmem) hskip

theorem skipEntry_file_eq (xf xF pre : List String) (n : String) (sz : Nat)
    (r : ReadResult) :
    skipEntry xf xF pre (.file n sz r)
      = (startsWithDot n || should_exclude_path xf xF (joinSlash (pre ++ [n])) true) := rfl

theorem skipEntry_dir_eq (xf xF pre : List String) (n : String) (rd : Bool)
    (cs : List FSEntry) :
    skipEntry xf xF pre (.dir n rd cs)
      = (startsWithDot n || should_exclude_path xf xF (joinSlash (pre ++ [n])) false) := rfl

/-- C7: a file entry whose read raises one of the caught exception classes
still contributes a `<file>` element whose content is the
`[Binary or unreadable file: ...]` placeholder naming the failure, and a run
over such a filesystem still exits successfully with a written document (the
embedding of the traversal is a total function: no per-file failure
propagates to the caller). -/
theorem C7_read_failure_placeholder (xf xF pre : List String) (cs : List FSEntry)
    (n msg : String) (sz : Nat)
    (hmem : FSEntry.file n sz (.err msg) ∈ cs)
    (hsz : sz ≤ 10 * 1024 * 1024)
    (hhid : startsWithDot n = false)
    (hexcl : should_exclude_path xf xF (joinSlash (pre ++ [n])) true = false) :
    Node.file n (joinSlash (pre ++ [n])) (languageFor n)
        ("[Binary or unreadable file: " ++ msg ++ "]")
      ∈ buildDir xf xF pre true cs
    ∧ ∀ (absPath baseName : String) (rootReadable : Bool) (entries : List FSEntry),
        (main_run true true absPath baseName rootReadable entries true xf xF).1 = 0 := by
  constructor
  · have hnode : nodeFor xf xF pre (.file n sz (.err msg))
        = Node.file n (joinSlash (pre ++ [n])) (languageFor n)
            ("[Binary or unreadable file: " ++ msg ++ "]") := by
      simp only [nodeFor, fileContent]
      rw [if_neg (by omega)]
    rw [← hnode]
    exact nodeFor_mem_buildDir xf xF pre hmem
      (by rw [skipEntry_file_eq, hhid, hexcl]; rfl)
  · intro absPath baseName rootReadable entries
    simp [main_run, describe_repo_contents_xml]

theorem C7_witness :
    (FSEntry.file "b.bin" 5 (.err "binary") ∈ [FSEntry.file "b.bin" 5 (.err "binary")])
    ∧ (5 ≤ 10 * 1024 * 1024)
    ∧ startsWithDot "b.bin" = false
    ∧ should_exclude_path [] [] (joinSlash ([] ++ ["b.bin"])) true = false
    ∧ Node.file "b.bin" (joinSlash ([] ++ ["b.bin"])) (languageFor "b.bin")
        ("[Binary or unreadable file: " ++ "binary" ++ "]")
      ∈ buildDir [] [] [] true [FSEntry.file "b.bin" 5 (.err "binary")] :=
  ⟨List.mem_singleton.2 rfl, by omega, by decide, by decide,
   (C7_read_failure_placeholder [] [] [] [FSEntry.file "b.bin" 5 (.err "binary")]
      "b.bin" "binary" 5 (List.mem_singleton.2 rfl) (by omega) (by decide) (by decide)).1⟩

/-- C10: the excluded-files patterns are consulted only for entries that are
files (`os.path.isfile` guards that branch), so a directory whose relative
path matches an excluded-files entry is still traversed and included,
provided no excluded-folder pattern window-matches its path and it is not
hidden. -/
theorem C10_file_patterns_spare_dirs (xf xF pre : List String) (cs : List FSEntry)
    (n : String) (rd : Bool) (children : List FSEntry)
    (hmem : FSEntry.dir n rd children ∈ cs)
    (hhid : startsWithDot n = false)
    (hfm : fileHit xF (joinSlash (pre ++ [n])) = true)
    (hfold : folderHit xf (joinSlash (pre ++ [n])) = false) :
    Node.dir n (joinSlash (pre ++ [n])) (buildDir xf xF (pre ++ [n]) rd children)
      ∈ buildDir xf xF pre true cs := by
  have hskip : skipEntry xf xF pre (.dir n rd children) = false := by
    rw [skipEntry_dir_eq, hhid, should_exclude_split]
    simp [hfold]
  exact nodeFor_mem_buildDir xf xF pre hmem hskip

theorem C10_witness :
    (FSEntry.dir "secret.env" true [] ∈ [FSEntry.dir "secret.env" true []])
    ∧ startsWithDot "secret.env" = false
    ∧ fileHit ["secret.env"] (joinSlash ([] ++ ["secret.env"])) = true
    ∧ folderHit [] (joinSlash ([] ++ ["secret.env"])) = false
    ∧ Node.dir "secret.env" (joinSlash ([] ++ ["secret.env"]))
        (buildDir [] ["secret.env"] ([] ++ ["secret.env"]) true [])
      ∈ buildDir [] ["secret.env"] [] true [FSEntry.dir "secret.env" true []] :=
  ⟨List.mem_singleton.2 rfl, by decide, by decide, by decide,
   C10_file_patterns_spare_dirs [] ["secret.env"] [] [FSEntry.dir "secret.env" true []]
     "secret.env" true [] (List.mem_singleton.2 rfl) (by decide) (by decide) (by decide)⟩

/-- C3: the size guard `file_size > 10 * 1024 * 1024` is strict, so a file of
exactly 10 MiB is read and its sanitized text becomes the content, while any
strictly larger size yields the `[File too large: {size} bytes]` placeholder
whatever the read outcome would have been (the file is never read). -/
theorem C3_size_boundary (xf xF pre : List String) (cs : List FSEntry)
    (n text : String)
    (hhid : startsWithDot n = false)
    (hexcl : should_exclude_path xf xF (joinSlash (pre ++ [n])) true = false) :
    (FSEntry.file n (10 * 1024 * 1024) (.ok text) ∈ cs →
      Node.file n (joinSlash (pre ++ [n])) (languageFor n) (sanitize text)
        ∈ buildDir xf xF pre true cs)
    ∧ ∀ (sz : Nat) (r : ReadResult), 10 * 1024 * 1024 < sz →
        FSEntry.file n sz r ∈ cs →
        Node.file n (joinSlash (pre ++ [n])) (languageFor n)
            ("[File too large: " ++ toString sz ++ " bytes]")
          ∈ buildDir xf xF pre true cs := by
  constructor
  · intro hmem
    have hnode : nodeFor xf xF pre (.file n (10 * 1024 * 1024) (.ok text))
        = Node.file n (joinSlash (pre ++ [n])) (languageFor n) (sanitize text) := by
      simp only [nodeFor, fileContent]
      rw [if_neg (by omega)]
    rw [← hnode]
    exact nodeFor_mem_buildDir xf xF pre hmem
      (by rw [skipEntry_file_eq, hhid, hexcl]; rfl)
  · intro sz r hsz hmem
    have hnode : nodeFor xf xF pre (.file n sz r)
        = Node.file n (joinSlash (pre ++ [n])) (languageFor n)
            ("[File too large: " ++ toString sz ++ " bytes]") := by
      simp only [nodeFor, fileContent]
      rw [if_pos (by omega)]
    rw [← hnode]
    exact nodeFor_mem_buildDir xf xF pre hmem
      (by rw [skipEntry_file_eq, hhid, hexcl]; rfl)

theorem C3_witness :
    startsWithDot "big.dat" = false
    ∧ should_exclude_path [] [] (joinSlash ([] ++ ["big.dat"])) true = false
    ∧ 10 * 1024 * 1024 < 10 * 1024 * 1024 + 1
    ∧ Node.file "big.dat" (joinSlash ([] ++ ["big.dat"])) (languageFor "big.dat")
        ("[File too large: " ++ toString (10 * 1024 * 1024 + 1) ++ " bytes]")
      ∈ buildDir [] [] [] true [FSEntry.file "big.dat" (10 * 1024 * 1024 + 1) (.ok "x")] :=
  ⟨by decide, by decide, by omega,
   (C3_size_boundary [] [] [] [FSEntry.file "big.dat" (10 * 1024 * 1024 + 1) (.ok "x")]
      "big.dat" "x" (by decide) (by decide)).2 (10 * 1024 * 1024 + 1) (.ok "x")
     (by omega) (List.mem_singleton.2 rfl)⟩

/-- C2 counterexample: with an unreadable directory `locked/` under the
root, the produced structure does NOT omit the `locked` directory node: the
`<directory>` element for `locked` was already attached to its parent before
`os.listdir` raised `PermissionError`, so it appears (childless) in the
output, next to the other entries.  The claimed tree (with `locked` absent)
is therefore not what the code produces. -/
theorem C2_counterexample :
    buildDir [] [] [] true
        [FSEntry.dir "locked" false [FSEntry.file "x.txt" 1 (.ok "hi")],
         FSEntry.file "a.txt" 2 (.ok "ok")]
      = [Node.file "a.txt" "a.txt" "text" "ok",
         Node.dir "locked" "locked" []]
    ∧ Node.dir "locked" "locked" [] ≠ Node.file "a.txt" "a.txt" "text" "ok" := by
  constructor
  · simp [buildDir, sortEntries, insertEntry, buildItems, startsWithDot, strLe,
      charListLe, should_exclude_path, joinSlash, fileContent, languageFor,
      splitextExt, pySplitOn, splitAcc, lowerStr, asciiLower, extension_to_language,
      sanitize, sanitizeChars, isStrippedControl]
    decide
  · intro h
    cases h

/-- C2 amended: a directory that cannot be listed keeps its own (childless)
`<directory>` element, while all of its descendants are absent — the output
is completely independent of the unreadable directory's subtree — and every
sibling entry is processed exactly as it would otherwise be; the run itself
still succeeds. -/
theorem C2_amended_unreadable_dir (xf xF pre : List String) (n : String)
    (cs cs' l₁ l₂ : List FSEntry)
    (hhid : startsWithDot n = false)
    (hfold : should_exclude_path xf xF (joinSlash (pre ++ [n])) false = false) :
    buildItems xf xF pre (l₁ ++ FSEntry.dir n false cs :: l₂)
      = buildItems xf xF pre (l₁ ++ FSEntry.dir n false cs' :: l₂)
    ∧ Node.dir n (joinSlash (pre ++ [n])) []
        ∈ buildItems xf xF pre (l₁ ++ FSEntry.dir n false cs :: l₂) := by
  constructor
  · induction l₁ with
    | nil =>
      simp only [List.nil_append]
      rw [buildItems_cons, buildItems_cons]
      have : nodeFor xf xF pre (FSEntry.dir n false cs)
          = nodeFor xf xF pre (FSEntry.dir n false cs') := by
        simp [nodeFor, buildDir]
      rw [skipEntry_dir_eq, skipEntry_dir_eq, this]
    | cons x xs ih =>
      simp only [List.cons_append]
      rw [buildItems_cons, buildItems_cons, ih]
  · have hskip : skipEntry xf xF pre (FSEntry.dir n false cs) = false := by
      rw [skipEntry_dir_eq, hhid, hfold]
      rfl
    have hnode : nodeFor xf xF pre (FSEntry.dir n false cs)
        = Node.dir n (joinSlash (pre ++ [n])) [] := by
      simp [nodeFor, buildDir]
    rw [← hnode]
    exact nodeFor_mem_buildItems xf xF pre
      (List.mem_append_right l₁ (List.mem_cons_self _ _)) hskip

theorem C2_witness :
    startsWithDot "locked" = false
    ∧ should_exclude_path [] [] (joinSlash ([] ++ ["locked"])) false = false
    ∧ buildItems [] [] [] ([] ++ FSEntry.dir "locked" false
          [FSEntry.file "x.txt" 1 (.ok "hi")] :: [])
        = buildItems [] [] [] ([] ++ FSEntry.dir "locked" false [] :: [])
    ∧ Node.dir "locked" (joinSlash ([] ++ ["locked"])) []
        ∈ buildItems [] [] [] ([] ++ FSEntry.dir "locked" false
            [FSEntry.file "x.txt" 1 (.ok "hi")] :: []) := by
  have h := C2_amended_unreadable_dir [] [] [] "locked"
    [FSEntry.file "x.txt" 1 (.ok "hi")] [] [] [] (by decide) (by decide)
  exact ⟨by decide, by decide, h.1, h.2⟩

theorem sanitizeChars_eq_filter (cs : List Char) :
    sanitizeChars cs = cs.filter (fun c => !isStrippedControl c) := by
  induction cs with
  | nil => rfl
  | cons c cs ih =>
    simp only [sanitizeChars, List.filter]
    by_cases h : isStrippedControl c = true
    · simp [h, ih]
    · simp only [Bool.not_eq_true] at h
      simp [h, ih]

/-- C4: the sanitizer is exactly character-wise deletion of the stripped
control characters — the surviving characters are unchanged and keep their
order (a `filter`) — and it is the identity on any string all of whose
characters are outside the stripped ranges. -/
theorem C4_sanitizer (s : String) :
    (sanitize s).data = s.data.filter (fun c => !isStrippedControl c)
    ∧ ((∀ c ∈ s.data, isStrippedControl c = false) → sanitize s = s) := by
  have hdata : (sanitize s).data = s.data.filter (fun c => !isStrippedControl c) := by
    simp [sanitize, sanitizeChars_eq_filter]
  refine ⟨hdata, fun h => ?_⟩
  apply String.ext
  rw [hdata]
  exact List.filter_eq_self.2 (fun c hc => by simp [h c hc])

theorem C4_witness :
    (∀ c ∈ "x=1\n".data, isStrippedControl c = false)
    ∧ sanitize "x=1\n" = "x=1\n" :=
  ⟨by decide, (C4_sanitizer "x=1\n").2 (by decide)⟩

/-- C8: a run over a missing or non-directory root exits with code 1 and
writes nothing; a run over an existing directory root with a writable output
exits with code 0 and writes the full document; and the exit code never
depends on the entries (or their readability) encountered during traversal,
so per-entry errors cannot cause overall failure. -/
theorem C8_exit_behavior (absPath baseName : String) (rootReadable : Bool)
    (entries : List FSEntry) (xf xF : List String) :
    (∀ (sourceIsDir outputWritable : Bool),
        main_run false sourceIsDir absPath baseName rootReadable entries
          outputWritable xf xF = (1, none))
    ∧ (∀ (outputWritable : Bool),
        main_run true false absPath baseName rootReadable entries
          outputWritable xf xF = (1, none))
    ∧ main_run true true absPath baseName rootReadable entries true xf xF
        = (0, some
            { source_path := absPath
              name := baseName
              excluded_folders := if xf.isEmpty then none else some (joinComma xf)
              excluded_files := if xF.isEmpty then none else some (joinComma xF)
              contents := buildDir xf xF [] rootReadable entries })
    ∧ ∀ (entries' : List FSEntry) (rootReadable' outputWritable : Bool),
        (main_run true true absPath baseName rootReadable entries
            outputWritable xf xF).1
          = (main_run true true absPath baseName rootReadable' entries'
              outputWritable xf xF).1 := by
  refine ⟨fun d w => by simp [main_run], fun w => by simp [main_run], ?_, ?_⟩
  · simp [main_run, describe_repo_contents_xml]
  · intro entries' rootReadable' outputWritable
    cases outputWritable with
    | false => simp [main_run, describe_repo_contents_xml]
    | true => simp [main_run, describe_repo_contents_xml]

theorem isPrefixOf_append {l₁ l₂ : List String} (l₃ : List String)
    (h : l₁.isPrefixOf l₂ = true) : l₁.isPrefixOf (l₂ ++ l₃) = true := by
  induction l₁ generalizing l₂ with
  | nil => simp [List.isPrefixOf]
  | cons a as ih =>
    cases l₂ with
    | nil => simp [List.isPrefixOf] at h
    | cons b bs =>
      simp only [List.cons_append, List.isPrefixOf, Bool.and_eq_true] at h ⊢
      exact ⟨h.1, ih h.2⟩

theorem hasWindow_append {pat parts : List String} (more : List String)
    (h : hasWindow pat parts = true) : hasWindow pat (parts ++ more) = true := by
  induction parts with
  | nil =>
    simp only [hasWindow] at h
    have hpat : pat = [] := by
      cases pat with
      | nil => rfl
      | cons p ps => simp [List.isPrefixOf] at h
    subst hpat
    cases more with
    | nil => simp [hasWindow, List.isPrefixOf]
    | cons m ms => simp [hasWindow, List.isPrefixOf]
  | cons s rest ih =>
    simp only [List.cons_append, hasWindow, Bool.or_eq_true] at h ⊢
    rcases h with h | h
    · exact Or.inl (isPrefixOf_append more h)
    · exact Or.inr (ih h)

theorem folderHit_of_not_excl {xf xF : List String} {p : String} {b : Bool}
    (h : should_exclude_path xf xF p b = false) : folderHit xf p = false := by
  rw [should_exclude_split] at h
  exact (Bool.or_eq_false_iff.1 h).2

mutual

theorem goodNode_paths_folderHit (xf xF : List String) (nd : Node)
    (h : goodNode xf xF nd = true) :
    ∀ q ∈ nodePathsOne nd, folderHit xf q = false := by
  intro q hq
  cases nd with
  | file n p lang c =>
    simp only [nodePathsOne, List.mem_singleton] at hq
    subst hq
    simp only [goodNode, Bool.and_eq_true, Bool.not_eq_true'] at h
    exact folderHit_of_not_excl h.1
  | dir n p cs =>
    simp only [goodNode, Bool.and_eq_true, Bool.not_eq_true'] at h
    simp only [nodePathsOne, List.mem_cons] at hq
    rcases hq with hq | hq
    · subst hq
      exact folderHit_of_not_excl h.1.1
    · exact goodList_paths_folderHit xf xF cs h.2 q hq

theorem goodList_paths_folderHit (xf xF : List String) (l : List Node)
    (h : goodList xf xF l = true) :
    ∀ q ∈ nodePathsList l, folderHit xf q = false := by
  intro q hq
  cases l with
  | nil => simp [nodePathsList] at hq
  | cons nd rest =>
    simp only [goodList, Bool.and_eq_true] at h
    simp only [nodePathsList, List.mem_append] at hq
    rcases hq with hq | hq
    · exact goodNode_paths_folderHit xf xF nd h.1 q hq
    · exact goodList_paths_folderHit xf xF rest h.2 q hq

end

theorem hasWindow_false_of_folderHit_false {xf : List String} {q : String}
    (h : folderHit xf q = false) {pat : String} (hp : pat ∈ xf) :
    hasWindow (pySplitSlash pat) (pySplitSlash q) = false := by
  unfold folderHit at h
  rw [List.any_eq_false] at h
  simpa using h pat hp

/-- C1: if the relative path of any entry, split on the path separator,
contains a contiguous run of segments equal to the segments of an
excluded-folder pattern (the sliding-window test of `should_exclude_path`),
then no path of the produced tree has that path's segments as a prefix: the
entry itself and its entire subtree are absent from the output. -/
theorem C1_folder_window_exclusion (xf xF : List String) (rd : Bool)
    (entries : List FSEntry) (pat rp : String)
    (hpat : pat ∈ xf)
    (hw : hasWindow (pySplitSlash pat) (pySplitSlash rp) = true) :
    ∀ q ∈ nodePathsList (buildDir xf xF [] rd entries),
      ¬ (pySplitSlash rp <+: pySplitSlash q) := by
  intro q hq hpre
  have hgood := goodList_buildDir xf xF [] rd entries
  have hnf := goodList_paths_folderHit xf xF _ hgood q hq
  have hqw := hasWindow_false_of_folderHit_false hnf hpat
  obtain ⟨t, ht⟩ := hpre
  rw [← ht, hasWindow_append t hw] at hqw
  cases hqw

theorem C1_witness :
    ("node_modules" ∈ ["node_modules"])
    ∧ hasWindow (pySplitSlash "node_modules") (pySplitSlash "src/node_modules") = true
    ∧ "src" ∈ nodePathsList (buildDir ["node_modules"] [] [] true
        [FSEntry.dir "src" true
          [FSEntry.dir "node_modules" true [FSEntry.file "a.js" 1 (.ok "x")]]])
    ∧ ¬ (pySplitSlash "src/node_modules" <+: pySplitSlash "src") := by
  have hmem : "src" ∈ nodePathsList (buildDir ["node_modules"] [] [] true
      [FSEntry.dir "src" true
        [FSEntry.dir "node_modules" true [FSEntry.file "a.js" 1 (.ok "x")]]]) := by
    simp only [buildDir, sortEntries, insertEntry, if_true]
    rw [buildItems_cons]
    simp [skipEntry, nodeFor, buildDir, sortEntries, insertEntry, buildItems,
      startsWithDot, should_exclude_path, joinSlash, hasWindow, pySplitSlash,
      pySplitOn, splitAcc, List.isPrefixOf, nodePathsList, nodePathsOne]
  exact ⟨by decide, by decide, hmem,
    C1_folder_window_exclusion ["node_modules"] [] true
      [FSEntry.dir "src" true
        [FSEntry.dir "node_modules" true [FSEntry.file "a.js" 1 (.ok "x")]]]
      "node_modules" "src/node_modules" (by decide) (by decide) "src" hmem⟩

theorem charListLe_trans {a b c : List Char} (h1 : charListLe a b = true)
    (h2 : charListLe b c = true) : charListLe a c = true := by
  induction a generalizing b c with
  | nil => simp [charListLe]
  | cons x xs ih =>
    cases b with
    | nil => simp [charListLe] at h1
    | cons y ys =>
      cases c with
      | nil => simp [charListLe] at h2
      | cons z zs =>
        simp only [charListLe] at h1 h2 ⊢
        by_cases hxy : x.toNat < y.toNat
        · by_cases hyz : y.toNat < z.toNat
          · rw [if_pos (by omega)]
          · by_cases hzy : z.toNat < y.toNat
            · rw [if_neg hyz, if_pos hzy] at h2
              cases h2
            · rw [if_pos (by omega)]
        · by_cases hyx : y.toNat < x.toNat
          · rw [if_neg hxy, if_pos hyx] at h1
            cases h1
          · rw [if_neg hxy, if_neg hyx] at h1
            by_cases hyz : y.toNat < z.toNat
            · rw [if_pos (by omega)]
            · by_cases hzy : z.toNat < y.toNat
              · rw [if_neg hyz, if_pos hzy] at h2
                cases h2
              · rw [if_neg hyz, if_neg hzy] at h2
                rw [if_neg (by omega), if_neg (by omega)]
                exact ih h1 h2

theorem charListLe_total (a b : List Char) :
    charListLe a b = true ∨ charListLe b a = true := by
  induction a generalizing b with
  | nil => left; simp [charListLe]
  | cons x xs ih =>
    cases b with
    | nil => right; simp [charListLe]
    | cons y ys =>
      simp only [charListLe]
      by_cases hxy : x.toNat < y.toNat
      · left; rw [if_pos hxy]
      · by_cases hyx : y.toNat < x.toNat
        · right; rw [if_pos hyx]
        · rcases ih ys with h | h
          · left; rw [if_neg hxy, if_neg hyx]; exact h
          · right; rw [if_neg hyx, if_neg hxy]; exact h

theorem charListLe_antisymm {a b : List Char} (h1 : charListLe a b = true)
    (h2 : charListLe b a = true) : a = b := by
  induction a generalizing b with
  | nil =>
    cases b with
    | nil => rfl
    | cons y ys => simp [charListLe] at h2
  | cons x xs ih =>
    cases b with
    | nil => simp [charListLe] at h1
    | cons y ys =>
      simp only [charListLe] at h1 h2
      by_cases hxy : x.toNat < y.toNat
      · rw [if_neg (by omega), if_pos hxy] at h2
        cases h2
      · by_cases hyx : y.toNat < x.toNat
        · rw [if_neg hxy, if_pos hyx] at h1
          cases h1
        · rw [if_neg hxy, if_neg hyx] at h1
          rw [if_neg hyx, if_neg hxy] at h2
          have hq : x.toNat = y.toNat := by omega
          have hx : x = y := Char.eq_of_val_eq (UInt32.ext hq)
          rw [hx, ih h1 h2]

theorem strLe_trans {a b c : String} (h1 : strLe a b = true)
    (h2 : strLe b c = true) : strLe a c = true :=
  charListLe_trans h1 h2

theorem strLe_total (a b : String) : strLe a b = true ∨ strLe b a = true :=
  charListLe_total a.data b.data

theorem strLe_antisymm {a b : String} (h1 : strLe a b = true)
    (h2 : strLe b a = true) : a = b :=
  String.ext (charListLe_antisymm h1 h2)

theorem pairwise_insertEntry {e : FSEntry} {l : List FSEntry}
    (h : l.Pairwise (fun a b => strLe a.name b.name = true)) :
    (insertEntry e l).Pairwise (fun a b => strLe a.name b.name = true) := by
  induction l with
  | nil => simp [insertEntry]
  | cons x xs ih =>
    rw [List.pairwise_cons] at h
    simp only [insertEntry]
    by_cases hle : strLe e.name x.name = true
    · rw [if_pos hle]
      refine List.Pairwise.cons ?_ (List.Pairwise.cons h.1 h.2)
      intro b hb
      rcases List.mem_cons.1 hb with rfl | hb
      · exact hle
      · exact strLe_trans hle (h.1 b hb)
    · rw [if_neg hle]
      refine List.Pairwise.cons ?_ (ih h.2)
      intro b hb
      have hxe : strLe x.name e.name = true := by
        rcases strLe_total e.name x.name with h' | h'
        · exact absurd h' hle
        · exact h'
      have hmem := (insertEntry_perm e xs).mem_iff.1 hb
      rcases List.mem_cons.1 hmem with rfl | hb'
      · exact hxe
      · exact h.1 b hb'

theorem pairwise_sortEntries (l : List FSEntry) :
    (sortEntries l).Pairwise (fun a b => strLe a.name b.name = true) := by
  induction l with
  | nil => simp [sortEntries]
  | cons x xs ih => exact pairwise_insertEntry ih

theorem sorted_perm_nodup_eq {l₁ l₂ : List FSEntry} (hp : l₁.Perm l₂)
    (hs₁ : l₁.Pairwise (fun a b => strLe a.name b.name = true))
    (hs₂ : l₂.Pairwise (fun a b => strLe a.name b.name = true))
    (hnd : (l₁.map FSEntry.name).Nodup) : l₁ = l₂ := by
  haveI : IsAntisymm FSEntry
      (fun a b => strLe a.name b.name = true ∧ a.name ≠ b.name) :=
    ⟨fun a b h₁ h₂ => absurd (strLe_antisymm h₁.1 h₂.1) h₁.2⟩
  have hne₁ : l₁.Pairwise (fun a b => a.name ≠ b.name) := List.pairwise_map.mp hnd
  have hnd₂ : (l₂.map FSEntry.name).Nodup := ((hp.map FSEntry.name).nodup_iff).mp hnd
  have hne₂ : l₂.Pairwise (fun a b => a.name ≠ b.name) := List.pairwise_map.mp hnd₂
  exact List.eq_of_perm_of_sorted hp (hs₁.and hne₁) (hs₂.and hne₂)

theorem sortEntries_eq_of_perm {l l' : List FSEntry} (hp : l.Perm l')
    (hnd : (l.map FSEntry.name).Nodup) : sortEntries l = sortEntries l' := by
  have hperm : (sortEntries l).Perm (sortEntries l') :=
    (sortEntries_perm l).trans (hp.trans (sortEntries_perm l').symm)
  have hnds : ((sortEntries l).map FSEntry.name).Nodup :=
    (((sortEntries_perm l).map FSEntry.name).nodup_iff).mpr hnd
  exact sorted_perm_nodup_eq hperm (pairwise_sortEntries l) (pairwise_sortEntries l') hnds

theorem sortEntries_eq_self {l : List FSEntry}
    (h : l.Pairwise (fun a b => strLe a.name b.name = true)) : sortEntries l = l := by
  induction l with
  | nil => rfl
  | cons x xs ih =>
    rw [List.pairwise_cons] at h
    simp only [sortEntries]
    rw [ih h.2]
    cases xs with
    | nil => rfl
    | cons y ys =>
      simp only [insertEntry]
      rw [if_pos (h.1 y (List.mem_cons_self _ _))]

theorem sortEntries_idem (l : List FSEntry) :
    sortEntries (sortEntries l) = sortEntries l :=
  sortEntries_eq_self (pairwise_sortEntries l)

theorem normEntry_name (e : FSEntry) : (normEntry e).name = e.name := by
  cases e <;> rfl

theorem normList_insertEntry (e : FSEntry) (l : List FSEntry) :
    normList (insertEntry e l) = insertEntry (normEntry e) (normList l) := by
  induction l with
  | nil => rfl
  | cons x xs ih =>
    simp only [insertEntry]
    by_cases hle : strLe e.name x.name = true
    · rw [if_pos hle, if_pos (by rw [normEntry_name, normEntry_name]; exact hle)]
      rfl
    · rw [if_neg hle,
        if_neg (by rw [normEntry_name, normEntry_name]; exact hle)]
      simp only [normList, ih]

theorem normList_sortEntries (l : List FSEntry) :
    normList (sortEntries l) = sortEntries (normList l) := by
  induction l with
  | nil => rfl
  | cons x xs ih =>
    simp only [sortEntries, normList, normList_insertEntry, ih]

mutual

theorem entrySize_normEntry (e : FSEntry) : entrySize (normEntry e) = entrySize e := by
  cases e with
  | file n sz r => rfl
  | dir n rd cs =>
    simp only [normEntry, entrySize, entrySizeList_sortEntries,
      entrySizeList_normList cs]

theorem entrySizeList_normList (l : List FSEntry) :
    entrySizeList (normList l) = entrySizeList l := by
  cases l with
  | nil => rfl
  | cons e rest =>
    simp only [normList, entrySizeList, entrySize_normEntry e,
      entrySizeList_normList rest]

end

theorem skipEntry_normEntry (xf xF pre : List String) (e : FSEntry) :
    skipEntry xf xF pre (normEntry e) = skipEntry xf xF pre e := by
  cases e <;> rfl

theorem buildItems_normList_bound (xf xF : List String) :
    ∀ (k : Nat) (pre : List String) (l : List FSEntry), entrySizeList l ≤ k →
      buildItems xf xF pre (normList l) = buildItems xf xF pre l := by
  intro k
  induction k with
  | zero =>
    intro pre l hl
    cases l with
    | nil => rfl
    | cons e rest =>
      exfalso
      have := entrySize_pos e
      simp [entrySizeList] at hl
      omega
  | succ k ih =>
    intro pre l hl
    cases l with
    | nil => rfl
    | cons e rest =>
      have hrest : entrySizeList rest ≤ k := by
        have := entrySize_pos e
        simp only [entrySizeList] at hl
        omega
      simp only [normList]
      rw [buildItems_cons, buildItems_cons, skipEntry_normEntry,
        ih pre rest hrest]
      congr 1
      by_cases hs : skipEntry xf xF pre e = true
      · rw [if_pos hs, if_pos hs]
      · rw [if_neg hs, if_neg hs]
        cases e with
        | file n sz r => rfl
        | dir n rd cs =>
          simp only [nodeFor, normEntry, buildDir]
          cases rd with
          | false => rfl
          | true =>
            simp only [if_true]
            have hcs : entrySizeList (sortEntries cs) ≤ k := by
              rw [entrySizeList_sortEntries]
              simp only [entrySizeList, entrySize] at hl
              omega
            rw [sortEntries_idem (normList cs), ← normList_sortEntries,
              ih (pre ++ [n]) (sortEntries cs) hcs]

theorem buildDir_root_eq_of_normForest {xf xF : List String} {rootReadable : Bool}
    {entries entries' : List FSEntry}
    (h : normForest entries = normForest entries') :
    buildDir xf xF [] rootReadable entries = buildDir xf xF [] rootReadable entries' := by
  unfold buildDir
  cases rootReadable with
  | false => rfl
  | true =>
    simp only [if_true]
    have key : ∀ m : List FSEntry,
        buildItems xf xF [] (sortEntries m) = buildItems xf xF [] (normForest m) := by
      intro m
      unfold normForest
      rw [← normList_sortEntries]
      exact (buildItems_normList_bound xf xF (entrySizeList (sortEntries m)) []
        (sortEntries m) le_rfl).symm
    rw [key entries, key entries', h]

theorem normList_eq_map (l : List FSEntry) : normList l = l.map normEntry := by
  induction l with
  | nil => rfl
  | cons e rest ih => simp [normList, ih]

/-- C9: the pipeline output is a pure function of the on-disk tree.  The
listing order returned by `os.listdir` is the only order-dependent input,
and every listing is sorted before use: two runs over filesystems that agree
up to per-directory listing order (equal order-normalizations, and in
particular any permutation of a duplicate-free root listing) produce the
same exit code and the same written document, byte for byte. -/
theorem C9_determinism (absPath baseName : String)
    (rootReadable outputWritable : Bool) (xf xF : List String)
    (entries entries' : List FSEntry) :
    (normForest entries = normForest entries' →
      main_run true true absPath baseName rootReadable entries outputWritable xf xF
        = main_run true true absPath baseName rootReadable entries' outputWritable xf xF)
    ∧ (entries.Perm entries' → (entries.map FSEntry.name).Nodup →
      main_run true true absPath baseName rootReadable entries outputWritable xf xF
        = main_run true true absPath baseName rootReadable entries' outputWritable xf xF) := by
  have hrun : ∀ (h : buildDir xf xF [] rootReadable entries
      = buildDir xf xF [] rootReadable entries'),
      main_run true true absPath baseName rootReadable entries outputWritable xf xF
        = main_run true true absPath baseName rootReadable entries' outputWritable xf xF := by
    intro h
    simp only [main_run, describe_repo_contents_xml, Bool.not_true, Bool.false_eq_true,
      if_false, h]
  constructor
  · intro h
    exact hrun (buildDir_root_eq_of_normForest h)
  · intro hp hnd
    apply hrun
    apply buildDir_root_eq_of_normForest
    unfold normForest
    rw [normList_eq_map, normList_eq_map]
    apply sortEntries_eq_of_perm (hp.map normEntry)
    have : (entries.map normEntry).map FSEntry.name = entries.map FSEntry.name := by
      rw [List.map_map]
      exact List.map_congr_left (fun e _ => normEntry_name e)
    rw [this]
    exact hnd

theorem C9_witness :
    normForest [FSEntry.file "b.txt" 1 (.ok "b"), FSEntry.file "a.txt" 1 (.ok "a")]
      = normForest [FSEntry.file "a.txt" 1 (.ok "a"), FSEntry.file "b.txt" 1 (.ok "b")]
    ∧ ([FSEntry.file "b.txt" 1 (.ok "b"), FSEntry.file "a.txt" 1 (.ok "a")].Perm
        [FSEntry.file "a.txt" 1 (.ok "a"), FSEntry.file "b.txt" 1 (.ok "b")])
    ∧ ([FSEntry.file "b.txt" 1 (.ok "b"),
        FSEntry.file "a.txt" 1 (.ok "a")].map FSEntry.name).Nodup
    ∧ main_run true true "/r" "r" true
        [FSEntry.file "b.txt" 1 (.ok "b"), FSEntry.file "a.txt" 1 (.ok "a")] true [] []
      = main_run true true "/r" "r" true
        [FSEntry.file "a.txt" 1 (.ok "a"), FSEntry.file "b.txt" 1 (.ok "b")] true [] [] := by
  refine ⟨?_, ?_, ?_, ?_⟩
  · rfl
  · exact List.Perm.swap _ _ _
  · simp [FSEntry.name]
  · exact (C9_determinism "/r" "r" true true [] []
      [FSEntry.file "b.txt" 1 (.ok "b"), FSEntry.file "a.txt" 1 (.ok "a")]
      [FSEntry.file "a.txt" 1 (.ok "a"), FSEntry.file "b.txt" 1 (.ok "b")]).1 rfl


theorem okName_no_slash {s : String} (h : okName s = true) : '/' ∉ s.data := by
  simp only [okName, Bool.and_eq_true, Bool.not_eq_true'] at h
  intro hc
  rw [show s.data.contains '/' = true from List.elem_iff.mpr hc] at h
  exact absurd h.1 (by simp)

theorem okName_data_ne_nil {s : String} (h : okName s = true) : s.data ≠ [] := by
  simp only [okName, Bool.and_eq_true, Bool.not_eq_true'] at h
  intro hc
  rw [show s.data.isEmpty = true by rw [hc]; rfl] at h
  exact absurd h.2 (by simp)

theorem splitAcc_ne_nil (sep : Char) (cur cs : List Char) :
    splitAcc sep cur cs ≠ [] := by
  induction cs generalizing cur with
  | nil => simp [splitAcc]
  | cons c cs ih =>
    simp only [splitAcc]
    by_cases h : c = sep
    · rw [if_pos h]; simp
    · rw [if_neg h]; exact ih _

theorem splitAcc_append (sep : Char) (cur xs ys : List Char) :
    splitAcc sep cur (xs ++ sep :: ys)
      = splitAcc sep cur xs ++ splitAcc sep [] ys := by
  induction xs generalizing cur with
  | nil => simp [splitAcc]
  | cons c cs ih =>
    by_cases h : c = sep
    · simp only [List.cons_append, splitAcc, if_pos h, List.append_eq, ih]
      try simp
    · simp only [List.cons_append, splitAcc, if_neg h, List.append_eq, ih]
      try simp

theorem pySplitSlash_append (x y : String) :
    pySplitSlash (x ++ "/" ++ y) = pySplitSlash x ++ pySplitSlash y := by
  unfold pySplitSlash pySplitOn
  have hdata : (x ++ "/" ++ y).data = x.data ++ '/' :: y.data := by
    rw [String.data_append, String.data_append]
    simp
  rw [hdata, splitAcc_append]

theorem splitAcc_no_sep (sep : Char) :
    ∀ (xs cur : List Char), sep ∉ xs →
      splitAcc sep cur xs = [String.mk (cur.reverse ++ xs)] := by
  intro xs
  induction xs with
  | nil => intro cur h; simp [splitAcc]
  | cons c cs ih =>
    intro cur h
    simp only [List.mem_cons, not_or] at h
    have hc : ¬ c = sep := fun hcc => h.1 hcc.symm
    simp only [splitAcc]
    rw [if_neg hc, ih (c :: cur) h.2]
    simp

theorem pySplitSlash_single {s : String} (h : '/' ∉ s.data) :
    pySplitSlash s = [s] := by
  unfold pySplitSlash pySplitOn
  rw [splitAcc_no_sep '/' s.data [] h]
  rfl

theorem joinSlash_cons_of_ne_nil (x : String) {rest : List String}
    (h : rest ≠ []) : joinSlash (x :: rest) = x ++ "/" ++ joinSlash rest := by
  cases rest with
  | nil => cases h rfl
  | cons y ys => rfl

theorem joinSlash_append {l₁ : List String} (l₂ : List String)
    (h₁ : l₁ ≠ []) (h₂ : l₂ ≠ []) :
    joinSlash (l₁ ++ l₂) = joinSlash l₁ ++ "/" ++ joinSlash l₂ := by
  induction l₁ with
  | nil => cases h₁ rfl
  | cons x xs ih =>
    cases xs with
    | nil =>
      rw [List.singleton_append, joinSlash_cons_of_ne_nil x h₂]
      rfl
    | cons x' xs' =>
      rw [List.cons_append, joinSlash_cons_of_ne_nil x (by simp),
        joinSlash_cons_of_ne_nil x (by simp), ih (by simp)]
      simp [String.append_assoc]

theorem pySplitSlash_joinSlash {segs : List String} (hne : segs ≠ [])
    (h : ∀ s ∈ segs, '/' ∉ s.data) :
    pySplitSlash (joinSlash segs) = segs := by
  induction segs with
  | nil => cases hne rfl
  | cons x xs ih =>
    cases xs with
    | nil =>
      show pySplitSlash (joinSlash [x]) = [x]
      rw [show joinSlash [x] = x from rfl]
      exact pySplitSlash_single (h x (List.mem_singleton.2 rfl))
    | cons y ys =>
      rw [joinSlash_cons_of_ne_nil x (by simp), pySplitSlash_append,
        pySplitSlash_single (h x (List.mem_cons_self _ _)),
        ih (by simp) (fun s hs => h s (List.mem_cons_of_mem x hs))]
      rfl

theorem joinSlash_splitAcc (cur cs : List Char) :
    joinSlash (splitAcc '/' cur cs) = String.mk (cur.reverse ++ cs) := by
  induction cs generalizing cur with
  | nil => simp [splitAcc, joinSlash]
  | cons c cs ih =>
    simp only [splitAcc]
    by_cases h : c = '/'
    · rw [if_pos h,
        joinSlash_cons_of_ne_nil _ (splitAcc_ne_nil '/' [] cs), ih []]
      apply String.ext
      rw [String.data_append, String.data_append]
      simp [h]
    · rw [if_neg h, ih (c :: cur)]
      simp

theorem joinSlash_pySplitSlash (p : String) : joinSlash (pySplitSlash p) = p := by
  unfold pySplitSlash pySplitOn
  rw [joinSlash_splitAcc]
  rfl

theorem mem_splitAcc_no_sep (sep : Char) :
    ∀ (cs cur : List Char), sep ∉ cur →
      ∀ x ∈ splitAcc sep cur cs, sep ∉ x.data := by
  intro cs
  induction cs with
  | nil =>
    intro cur hcur x hx
    simp only [splitAcc, List.mem_singleton] at hx
    subst hx
    simpa using hcur
  | cons c cs ih =>
    intro cur hcur x hx
    simp only [splitAcc] at hx
    by_cases h : c = sep
    · rw [if_pos h] at hx
      rcases List.mem_cons.1 hx with rfl | hx
      · simpa using hcur
      · exact ih [] (by simp) x hx
    · rw [if_neg h] at hx
      exact ih (c :: cur)
        (by simp only [List.mem_cons, not_or]
            exact ⟨fun hh => h hh.symm, hcur⟩) x hx

theorem mem_pySplitSlash_no_slash (p : String) :
    ∀ x ∈ pySplitSlash p, '/' ∉ x.data :=
  mem_splitAcc_no_sep '/' p.data [] (by simp)

theorem joinSlash_ne_empty {l : List String} (hne : l ≠ [])
    (h : ∀ s ∈ l, okName s = true) : joinSlash l ≠ "" := by
  cases l with
  | nil => cases hne rfl
  | cons x xs =>
    have hx := okName_data_ne_nil (h x (List.mem_cons_self _ _))
    cases xs with
    | nil =>
      show joinSlash [x] ≠ ""
      intro hcon
      rw [show joinSlash [x] = x from rfl] at hcon
      subst hcon
      exact hx rfl
    | cons y ys =>
      rw [joinSlash_cons_of_ne_nil x (by simp)]
      intro hcon
      have hdat : (x ++ "/" ++ joinSlash (y :: ys)).data = [] := by rw [hcon]
      rw [String.data_append, String.data_append] at hdat
      rcases List.append_eq_nil.1 hdat with ⟨hdat1, _⟩
      rcases List.append_eq_nil.1 hdat1 with ⟨_, h2⟩
      cases h2

theorem joinSlash_inj {a b : List String}
    (ha : ∀ s ∈ a, okName s = true) (hb : ∀ s ∈ b, okName s = true)
    (h : joinSlash a = joinSlash b) : a = b := by
  cases a with
  | nil =>
    cases b with
    | nil => rfl
    | cons y ys =>
      exact absurd h.symm (joinSlash_ne_empty (by simp) hb)
  | cons x xs =>
    cases b with
    | nil => exact absurd h (joinSlash_ne_empty (by simp) ha)
    | cons y ys =>
      have hsplit := congrArg pySplitSlash h
      rw [pySplitSlash_joinSlash (by simp) (fun s hs => okName_no_slash (ha s hs)),
        pySplitSlash_joinSlash (by simp) (fun s hs => okName_no_slash (hb s hs))]
        at hsplit
      exact hsplit

theorem joinSlash_cancel {pre a b : List String}
    (hpre : ∀ s ∈ pre, okName s = true)
    (ha : ∀ s ∈ a, okName s = true) (hb : ∀ s ∈ b, okName s = true)
    (h : joinSlash (pre ++ a) = joinSlash (pre ++ b)) : a = b := by
  have hall : pre ++ a = pre ++ b :=
    joinSlash_inj
      (fun s hs => (List.mem_append.1 hs).elim (hpre s) (ha s))
      (fun s hs => (List.mem_append.1 hs).elim (hpre s) (hb s)) h
  exact List.append_cancel_left hall

theorem filePathsList_append (l₁ l₂ : List Node) :
    filePathsList (l₁ ++ l₂) = filePathsList l₁ ++ filePathsList l₂ := by
  induction l₁ with
  | nil => simp [filePathsList]
  | cons nd l ih => simp [filePathsList, ih]

theorem listFileSegs_append (l₁ l₂ : List FSEntry) :
    listFileSegs (l₁ ++ l₂) = listFileSegs l₁ ++ listFileSegs l₂ := by
  induction l₁ with
  | nil => simp [listFileSegs]
  | cons e l ih => simp [listFileSegs, ih]

theorem listFileSegs_perm {l l' : List FSEntry} (h : l.Perm l') :
    (listFileSegs l).Perm (listFileSegs l') := by
  induction h with
  | nil => exact List.Perm.refl _
  | cons e _ ih => exact ih.append_left (entryFileSegs e)
  | swap x y l =>
    show (listFileSegs (y :: x :: l)).Perm (listFileSegs (x :: y :: l))
    simp only [listFileSegs]
    rw [← List.append_assoc, ← List.append_assoc]
    exact (List.perm_append_comm).append_right (listFileSegs l)
  | trans _ _ ih₁ ih₂ => exact ih₁.trans ih₂

theorem validList_iff_mem {l : List FSEntry} :
    validList l = true ↔ ∀ e ∈ l, validEntry e = true := by
  induction l with
  | nil => simp [validList]
  | cons e rest ih =>
    simp only [validList, Bool.and_eq_true, ih, List.mem_cons]
    constructor
    · rintro ⟨h1, h2⟩ x (rfl | hx)
      · exact h1
      · exact h2 x hx
    · intro h
      exact ⟨h e (Or.inl rfl), fun x hx => h x (Or.inr hx)⟩

theorem validList_sortEntries {l : List FSEntry} (h : validList l = true) :
    validList (sortEntries l) = true := by
  rw [validList_iff_mem] at h ⊢
  intro e he
  exact h e ((sortEntries_perm l).mem_iff.1 he)

mutual

theorem entryFileSegs_ok (e : FSEntry) (hv : validEntry e = true) :
    ∀ segs ∈ entryFileSegs e, segs ≠ [] ∧ ∀ s ∈ segs, okName s = true := by
  cases e with
  | file n sz r =>
    intro segs hsegs
    simp only [entryFileSegs, List.mem_singleton] at hsegs
    subst hsegs
    exact ⟨by simp, fun s hs => by
      rw [List.mem_singleton.1 hs]
      exact hv⟩
  | dir n rd cs =>
    intro segs hsegs
    simp only [validEntry, Bool.and_eq_true] at hv
    simp only [entryFileSegs] at hsegs
    cases rd with
    | false => simp at hsegs
    | true =>
      simp only [if_true, List.mem_map] at hsegs
      obtain ⟨t, ht, rfl⟩ := hsegs
      have := listFileSegs_ok cs hv.2 t ht
      refine ⟨by simp, fun s hs => ?_⟩
      rcases List.mem_cons.1 hs with rfl | hs
      · exact hv.1
      · exact this.2 s hs

theorem listFileSegs_ok (l : List FSEntry) (hv : validList l = true) :
    ∀ segs ∈ listFileSegs l, segs ≠ [] ∧ ∀ s ∈ segs, okName s = true := by
  cases l with
  | nil => intro segs hsegs; simp [listFileSegs] at hsegs
  | cons e rest =>
    intro segs hsegs
    simp only [validList, Bool.and_eq_true] at hv
    simp only [listFileSegs, List.mem_append] at hsegs
    rcases hsegs with hsegs | hsegs
    · exact entryFileSegs_ok e hv.1 segs hsegs
    · exact listFileSegs_ok rest hv.2 segs hsegs

end

theorem folderHit_extend {xf : List String} {dp : String} (rest : String)
    (h : folderHit xf dp = true) : folderHit xf (dp ++ "/" ++ rest) = true := by
  unfold folderHit at h ⊢
  rw [List.any_eq_true] at h ⊢
  obtain ⟨pat, hpat, hw⟩ := h
  refine ⟨pat, hpat, ?_⟩
  rw [pySplitSlash_append]
  exact hasWindow_append _ hw

theorem should_exclude_dir_eq (xf xF : List String) (p : String) :
    should_exclude_path xf xF p false = folderHit xf p := rfl

theorem filePaths_shape (xf xF : List String) :
    ∀ (k : Nat) (pre : List String) (l : List FSEntry), entrySizeList l ≤ k →
      validList l = true →
      ∀ p ∈ filePathsList (buildItems xf xF pre l),
        ∃ segs, segs ≠ [] ∧ (∀ s ∈ segs, okName s = true)
          ∧ p = joinSlash (pre ++ segs) := by
  intro k
  induction k with
  | zero =>
    intro pre l hl hv p hp
    cases l with
    | nil => simp [buildItems, filePathsList] at hp
    | cons e rest =>
      exfalso
      have := entrySize_pos e
      simp [entrySizeList] at hl
      omega
  | succ k ih =>
    intro pre l hl hv p hp
    cases l with
    | nil => simp [buildItems, filePathsList] at hp
    | cons e rest =>
      rw [buildItems_cons, filePathsList_append] at hp
      simp only [validList, Bool.and_eq_true] at hv
      have hrest : entrySizeList rest ≤ k := by
        have := entrySize_pos e
        simp only [entrySizeList] at hl
        omega
      rcases List.mem_append.1 hp with hp | hp
      · by_cases hs : skipEntry xf xF pre e = true
        · rw [if_pos hs] at hp
          simp [filePathsList] at hp
        · rw [if_neg hs] at hp
          cases e with
          | file n sz r =>
            simp only [nodeFor, filePathsList, filePathsOfNode,
              List.append_nil, List.mem_singleton] at hp
            refine ⟨[n], by simp, fun s hs' => ?_, hp⟩
            rw [List.mem_singleton.1 hs']
            exact hv.1
          | dir n rd cs =>
            simp only [nodeFor, filePathsList, filePathsOfNode,
              List.append_nil, buildDir] at hp
            cases rd with
            | false => simp [filePathsList] at hp
            | true =>
              rw [if_pos rfl] at hp
              have hvd : (okName n && validList cs) = true := hv.1
              rw [Bool.and_eq_true] at hvd
              have hcs : entrySizeList (sortEntries cs) ≤ k := by
                rw [entrySizeList_sortEntries]
                simp only [entrySizeList, entrySize] at hl
                omega
              obtain ⟨segs, hne, hok, hp'⟩ := ih (pre ++ [n]) (sortEntries cs)
                hcs (validList_sortEntries hvd.2) p hp
              refine ⟨n :: segs, by simp, fun s hs' => ?_, ?_⟩
              · rcases List.mem_cons.1 hs' with rfl | hs'
                · exact hvd.1
                · exact hok s hs'
              · rw [hp', List.append_assoc]
                rfl
      · exact ih pre rest hrest hv.2 p hp

theorem mem_filePaths_iff (xf xF : List String) :
    ∀ (k : Nat) (pre : List String) (l : List FSEntry), entrySizeList l ≤ k →
      validList l = true →
      (∀ s ∈ pre, okName s = true) →
      ∀ segs : List String, (∀ s ∈ segs, okName s = true) →
      (joinSlash (pre ++ segs) ∈ filePathsList (buildItems xf xF pre l)
        ↔ (segs ∈ listFileSegs l
            ∧ segs.all (fun s => !startsWithDot s) = true
            ∧ should_exclude_path xf xF (joinSlash (pre ++ segs)) true = false)) := by
  intro k
  induction k with
  | zero =>
    intro pre l hl hv hpre segs hsegs
    cases l with
    | nil => simp [buildItems, filePathsList, listFileSegs]
    | cons e rest =>
      exfalso
      have := entrySize_pos e
      simp [entrySizeList] at hl
      omega
  | succ k ih =>
    intro pre l hl hv hpre segs hsegs
    cases l with
    | nil => simp [buildItems, filePathsList, listFileSegs]
    | cons e rest =>
      rw [buildItems_cons, filePathsList_append]
      simp only [validList, Bool.and_eq_true] at hv
      have hrest : entrySizeList rest ≤ k := by
        have := entrySize_pos e
        simp only [entrySizeList] at hl
        omega
      have htail := ih pre rest hrest hv.2 hpre segs hsegs
      have hhead : joinSlash (pre ++ segs)
            ∈ filePathsList (if skipEntry xf xF pre e then []
                else [nodeFor xf xF pre e])
          ↔ (segs ∈ entryFileSegs e
              ∧ segs.all (fun s => !startsWithDot s) = true
              ∧ should_exclude_path xf xF (joinSlash (pre ++ segs)) true
                  = false) := by
        cases e with
        | file n sz r =>
          have hokn : okName n = true := hv.1
          by_cases hseg : segs = [n]
          · subst hseg
            by_cases hs : skipEntry xf xF pre (FSEntry.file n sz r) = true
            · rw [if_pos hs]
              simp only [filePathsList, List.not_mem_nil, false_iff]
              rw [skipEntry_file_eq, Bool.or_eq_true] at hs
              rintro ⟨-, hall, hexcl⟩
              rcases hs with hs | hs
              · simp [List.all_cons, hs] at hall
              · rw [hs] at hexcl
                cases hexcl
            · rw [if_neg hs]
              rw [skipEntry_file_eq, Bool.or_eq_true, not_or] at hs
              simp only [Bool.not_eq_true] at hs
              simp [nodeFor, filePathsList, filePathsOfNode, entryFileSegs,
                List.all_cons, hs.1, hs.2]
          · constructor
            · intro hp
              exfalso
              by_cases hs : skipEntry xf xF pre (FSEntry.file n sz r) = true
              · rw [if_pos hs] at hp
                simp [filePathsList] at hp
              · rw [if_neg hs] at hp
                simp only [nodeFor, filePathsList, filePathsOfNode,
                  List.append_nil, List.mem_singleton] at hp
                exact hseg (joinSlash_cancel hpre hsegs
                  (fun s hs' => by rw [List.mem_singleton.1 hs']; exact hokn) hp)
            · rintro ⟨hmem, -, -⟩
              exfalso
              simp only [entryFileSegs, List.mem_singleton] at hmem
              exact hseg hmem
        | dir n rd cs =>
          have hvd : (okName n && validList cs) = true := hv.1
          rw [Bool.and_eq_true] at hvd
          cases rd with
          | false =>
            simp only [entryFileSegs, Bool.false_eq_true, if_false,
              List.not_mem_nil, false_and, iff_false]
            intro hp
            by_cases hs : skipEntry xf xF pre (FSEntry.dir n false cs) = true
            · rw [if_pos hs] at hp
              simp [filePathsList] at hp
            · rw [if_neg hs] at hp
              simp only [nodeFor, buildDir, Bool.false_eq_true, if_false,
                filePathsList, filePathsOfNode, List.append_nil] at hp
              simp [filePathsList] at hp
          | true =>
            have hcs : entrySizeList (sortEntries cs) ≤ k := by
              rw [entrySizeList_sortEntries]
              simp only [entrySizeList, entrySize] at hl
              omega
            have hshape_dir : joinSlash (pre ++ segs)
                ∈ filePathsList (buildItems xf xF (pre ++ [n]) (sortEntries cs)) →
                ∃ t, segs = n :: t := by
              intro hmem
              obtain ⟨t, hne, hok, heq⟩ := filePaths_shape xf xF
                (entrySizeList (sortEntries cs)) (pre ++ [n]) (sortEntries cs)
                le_rfl (validList_sortEntries hvd.2) _ hmem
              rw [List.append_assoc] at heq
              refine ⟨t, joinSlash_cancel hpre hsegs (fun s hs' => ?_) heq⟩
              rcases List.mem_cons.1 hs' with rfl | hs'
              · exact hvd.1
              · exact hok s hs'
            have hheadpaths : filePathsList (if skipEntry xf xF pre
                  (FSEntry.dir n true cs) then []
                else [nodeFor xf xF pre (FSEntry.dir n true cs)])
                = if skipEntry xf xF pre (FSEntry.dir n true cs) then []
                  else filePathsList (buildItems xf xF (pre ++ [n]) (sortEntries cs)) := by
              by_cases hs : skipEntry xf xF pre (FSEntry.dir n true cs) = true
              · rw [if_pos hs, if_pos hs]
                rfl
              · rw [if_neg hs, if_neg hs]
                simp [nodeFor, buildDir, filePathsList, filePathsOfNode]
            rw [hheadpaths]
            cases segs with
            | nil =>
              constructor
              · intro hp
                exfalso
                by_cases hs : skipEntry xf xF pre (FSEntry.dir n true cs) = true
                · rw [if_pos hs] at hp
                  simp at hp
                · rw [if_neg hs] at hp
                  obtain ⟨t, ht⟩ := hshape_dir hp
                  cases ht
              · rintro ⟨hmem, -, -⟩
                exfalso
                simp only [entryFileSegs, if_true, List.mem_map] at hmem
                obtain ⟨t, -, ht⟩ := hmem
                cases ht
            | cons m s' =>
              by_cases hm : m = n
              · subst hm
                by_cases hs : skipEntry xf xF pre (FSEntry.dir m true cs) = true
                · rw [if_pos hs]
                  simp only [List.not_mem_nil, false_iff]
                  rintro ⟨hmem, hall, hexcl⟩
                  simp only [entryFileSegs, if_true, List.mem_map] at hmem
                  obtain ⟨t, htmem, ht⟩ := hmem
                  have hts : t = s' := ((List.cons.injEq _ _ _ _).mp ht).2
                  subst hts
                  rw [skipEntry_dir_eq, Bool.or_eq_true] at hs
                  rcases hs with hs | hs
                  · simp [List.all_cons, hs] at hall
                  · rw [should_exclude_dir_eq] at hs
                    have hne : t ≠ [] :=
                      (listFileSegs_ok cs hvd.2 t htmem).1
                    have hfull : joinSlash (pre ++ m :: t)
                        = joinSlash (pre ++ [m]) ++ "/" ++ joinSlash t := by
                      rw [show pre ++ m :: t = (pre ++ [m]) ++ t by
                        rw [List.append_assoc]; rfl]
                      exact joinSlash_append t (by simp) hne
                    rw [should_exclude_split] at hexcl
                    rw [hfull] at hexcl
                    rw [folderHit_extend (joinSlash t) hs] at hexcl
                    simp at hexcl
                · rw [if_neg hs]
                  rw [skipEntry_dir_eq, Bool.or_eq_true, not_or] at hs
                  simp only [Bool.not_eq_true] at hs
                  have hassoc : pre ++ m :: s' = (pre ++ [m]) ++ s' := by
                    rw [List.append_assoc]
                    rfl
                  rw [hassoc]
                  have hih := ih (pre ++ [m]) (sortEntries cs) hcs
                    (validList_sortEntries hvd.2)
                    (fun s hs' => by
                      rcases List.mem_append.1 hs' with hs' | hs'
                      · exact hpre s hs'
                      · rw [List.mem_singleton.1 hs']
                        exact hvd.1)
                    s' (fun s hs' => hsegs s (List.mem_cons_of_mem m hs'))
                  rw [hih]
                  constructor
                  · rintro ⟨hmem, hall, hexcl⟩
                    refine ⟨?_, ?_, hexcl⟩
                    · simp only [entryFileSegs, if_true, List.mem_map]
                      exact ⟨s', (listFileSegs_perm (sortEntries_perm cs)).mem_iff.1 hmem,
                        rfl⟩
                    · simp [List.all_cons, hs.1, hall]
                  · rintro ⟨hmem, hall, hexcl⟩
                    simp only [entryFileSegs, if_true, List.mem_map] at hmem
                    obtain ⟨t, htmem, ht⟩ := hmem
                    have hts : t = s' := ((List.cons.injEq _ _ _ _).mp ht).2
                    subst hts
                    simp only [List.all_cons, Bool.and_eq_true] at hall
                    exact ⟨(listFileSegs_perm (sortEntries_perm cs)).mem_iff.2 htmem,
                      hall.2, hexcl⟩
              · constructor
                · intro hp
                  exfalso
                  by_cases hs : skipEntry xf xF pre (FSEntry.dir n true cs) = true
                  · rw [if_pos hs] at hp
                    simp at hp
                  · rw [if_neg hs] at hp
                    obtain ⟨t, ht⟩ := hshape_dir hp
                    injection ht with h1 h2
                    exact hm h1
                · rintro ⟨hmem, -, -⟩
                  exfalso
                  simp only [entryFileSegs, if_true, List.mem_map] at hmem
                  obtain ⟨t, -, ht⟩ := hmem
                  injection ht with h1 h2
                  exact hm h1.symm
      rw [List.mem_append, hhead, htail]
      simp only [listFileSegs, List.mem_append]
      constructor
      · rintro (⟨h1, h2, h3⟩ | ⟨h1, h2, h3⟩)
        · exact ⟨Or.inl h1, h2, h3⟩
        · exact ⟨Or.inr h1, h2, h3⟩
      · rintro ⟨h1 | h1, h2, h3⟩
        · exact Or.inl ⟨h1, h2, h3⟩
        · exact Or.inr ⟨h1, h2, h3⟩

/-- C5 counterexample: the hidden file `.env`, with BOTH exclusion lists
empty, is absent from the produced tree (the output has zero file paths)
even though its relative path matches no entry of the excluded-files set —
so "excluded if and only if it matches the excluded-files set" fails in the
only-if direction. -/
theorem C5_counterexample :
    filePathsList (buildDir [] [] [] true [FSEntry.file ".env" 1 (.ok "k")]) = []
    ∧ fileHit [] ".env" = false := by
  constructor
  · simp [buildDir, sortEntries, insertEntry, buildItems, startsWithDot,
      filePathsList]
  · rfl

/-- C5 amended: over a well-formed filesystem, a file entry reachable
through readable directories appears in the produced tree if and only if no
segment of its relative path is hidden AND `should_exclude_path` is false
for it as a file — i.e. it is excluded exactly when it matches the
excluded-files set (equality or `/`-anchored suffix), or some path segment
starts with `'.'`, or an excluded-folder pattern window-matches its path.
In particular a root containing only `secret.env` with excluded-files
`["secret.env"]` yields zero file nodes. -/
theorem C5_file_exclusion (xf xF : List String) (entries : List FSEntry)
    (p : String) (hv : validList entries = true) :
    p ∈ filePathsList (buildDir xf xF [] true entries)
      ↔ (pySplitSlash p ∈ listFileSegs entries
          ∧ (pySplitSlash p).all (fun s => !startsWithDot s) = true
          ∧ should_exclude_path xf xF p true = false) := by
  unfold buildDir
  rw [if_pos rfl]
  by_cases hok : ∀ s ∈ pySplitSlash p, okName s = true
  · have hmain := mem_filePaths_iff xf xF (entrySizeList (sortEntries entries)) []
      (sortEntries entries) le_rfl (validList_sortEntries hv) (by simp)
      (pySplitSlash p) hok
    rw [List.nil_append, joinSlash_pySplitSlash] at hmain
    rw [hmain]
    constructor
    · rintro ⟨h1, h2, h3⟩
      exact ⟨(listFileSegs_perm (sortEntries_perm entries)).mem_iff.1 h1, h2, h3⟩
    · rintro ⟨h1, h2, h3⟩
      exact ⟨(listFileSegs_perm (sortEntries_perm entries)).mem_iff.2 h1, h2, h3⟩
  · constructor
    · intro hp
      exfalso
      obtain ⟨segs, hne, hokk, heq⟩ := filePaths_shape xf xF
        (entrySizeList (sortEntries entries)) [] (sortEntries entries)
        le_rfl (validList_sortEntries hv) p hp
      rw [List.nil_append] at heq
      apply hok
      rw [heq, pySplitSlash_joinSlash hne (fun s hs => okName_no_slash (hokk s hs))]
      exact hokk
    · rintro ⟨h1, -, -⟩
      exact absurd (listFileSegs_ok entries hv (pySplitSlash p) h1).2 hok

theorem C5_witness :
    validList [FSEntry.file "secret.env" 1 (.ok "k=v")] = true
    ∧ ("secret.env" ∈ filePathsList (buildDir [] ["secret.env"] [] true
          [FSEntry.file "secret.env" 1 (.ok "k=v")])
        ↔ (pySplitSlash "secret.env"
              ∈ listFileSegs [FSEntry.file "secret.env" 1 (.ok "k=v")]
            ∧ (pySplitSlash "secret.env").all (fun s => !startsWithDot s) = true
            ∧ should_exclude_path [] ["secret.env"] "secret.env" true = false)) :=
  ⟨by decide, C5_file_exclusion [] ["secret.env"]
    [FSEntry.file "secret.env" 1 (.ok "k=v")] "secret.env" (by decide)⟩

end Repo2AI
